import Mathlib

/-!
Shallow embedding of the `todolist-poc` repository: a GraphQL CRUD service
over a single SQLite table `tasks` (`src/server.js`) plus the browser
client's `addTask` handler (the inline script of `index.html`).

The store is modelled as the list of table rows in insertion (rowid) order,
together with the `AUTOINCREMENT` counter, a logical clock standing for
`CURRENT_TIMESTAMP` (strictly increasing across inserts), and the log of
`pubsub.publish` calls.  Each resolver of `src/server.js` becomes a pure
function from the store to its result and the updated store.
-/

namespace TodoPoc

/-- One row of the `tasks` table:
`id INTEGER PRIMARY KEY AUTOINCREMENT, title TEXT NOT NULL,
status TEXT NOT NULL DEFAULT 'todo', created_at DATETIME DEFAULT CURRENT_TIMESTAMP`. -/
structure Task where
  id : Nat
  title : String
  status : String
  created_at : Nat
  deriving Repr, DecidableEq

/-- Payload of a `pubsub.publish` call: `createTask` and `updateTaskStatus`
publish `{ taskUpdated: row }` where `row` is the re-fetched row (possibly
absent), and `deleteTask` publishes `{ taskUpdated: { id, deleted: true } }`. -/
inductive Payload where
  | row (t : Option Task)
  | deletion (id : Nat)
  deriving Repr, DecidableEq

/-- A `pubsub.publish(channel, payload)` event. -/
structure Publication where
  channel : String
  payload : Payload
  deriving Repr, DecidableEq

/-- The server state: table rows in insertion order, the `AUTOINCREMENT`
counter (`nextId` is the id the next insert receives), a logical clock
supplying `CURRENT_TIMESTAMP` values, and the log of published events. -/
structure DB where
  rows : List Task
  nextId : Nat
  time : Nat
  published : List Publication
  deriving Repr, DecidableEq

/-- `SELECT * FROM tasks WHERE id = ?` — first row matching the id. -/
def getTask (i : Nat) (rows : List Task) : Option Task :=
  rows.find? (fun t => t.id == i)

/-- Stable insertion into a list sorted by `created_at` descending. -/
def insertDesc (t : Task) : List Task → List Task
  | [] => [t]
  | x :: xs => if x.created_at ≤ t.created_at then t :: x :: xs else x :: insertDesc t xs

/-- Stable sort by `created_at` descending (ties keep insertion order). -/
def orderByCreatedAtDesc : List Task → List Task
  | [] => []
  | x :: xs => insertDesc x (orderByCreatedAtDesc xs)

/-- `Query.tasks`: `SELECT * FROM tasks ORDER BY created_at DESC`. -/
def tasksQuery (db : DB) : List Task :=
  orderByCreatedAtDesc db.rows

/-- Append one `pubsub.publish` event to the log. -/
def publish (channel : String) (p : Payload) (db : DB) : DB :=
  { db with published := db.published ++ [⟨channel, p⟩] }

/-- The row `INSERT INTO tasks (title, status) VALUES (?, 'todo')` creates:
id from the autoincrement counter, `created_at` from the current clock. -/
def newTaskRow (title : String) (db : DB) : Task :=
  { id := db.nextId, title := title, status := "todo", created_at := db.time }

/-- `Mutation.createTask`: insert `(title, 'todo')`, re-fetch the row by
`this.lastID`, publish `{ taskUpdated: row }` on `TASK_UPDATED`, resolve
with the re-fetched row. -/
def createTask (title : String) (db : DB) : Option Task × DB :=
  let rows' := db.rows ++ [newTaskRow title db]
  let fetched := getTask db.nextId rows'
  (fetched,
    publish "TASK_UPDATED" (.row fetched)
      { db with rows := rows', nextId := db.nextId + 1, time := db.time + 1 })

/-- Effect of `UPDATE tasks SET status = ? WHERE id = ?` on one row. -/
def setStatusRow (i : Nat) (status : String) (t : Task) : Task :=
  if t.id == i then { t with status := status } else t

/-- `Mutation.updateTaskStatus`: `UPDATE tasks SET status = ? WHERE id = ?`
(no existence check), re-fetch by id, publish `{ taskUpdated: row }` on
`TASK_UPDATED`, resolve with the re-fetched row (absent when no row matched). -/
def updateTaskStatus (i : Nat) (status : String) (db : DB) : Option Task × DB :=
  let rows' := db.rows.map (setStatusRow i status)
  let fetched := getTask i rows'
  (fetched, publish "TASK_UPDATED" (.row fetched) { db with rows := rows' })

/-- `Mutation.deleteTask`: `DELETE FROM tasks WHERE id = ?` (no existence
check, no count), publish `{ taskUpdated: { id, deleted: true } }` on
`TASK_UPDATED`, resolve `true` unconditionally. -/
def deleteTask (i : Nat) (db : DB) : Bool × DB :=
  let rows' := db.rows.filter (fun t => t.id != i)
  (true, publish "TASK_UPDATED" (.deletion i) { db with rows := rows' })

/-- One seed insert of the startup block:
`INSERT INTO tasks (title, status) VALUES (?, ?)` (no publish). -/
def insertSeed (title status : String) (db : DB) : DB :=
  { db with
      rows := db.rows ++ [{ id := db.nextId, title := title, status := status,
                            created_at := db.time }],
      nextId := db.nextId + 1, time := db.time + 1 }

/-- The freshly created `:memory:` database: empty table, autoincrement
counter at 1. -/
def emptyDB : DB := { rows := [], nextId := 1, time := 0, published := [] }

/-- The store right after `db.serialize`: the three sample rows of
`src/server.js`. -/
def initialDB : DB :=
  insertSeed "Deploy to production" "done"
    (insertSeed "Review pull requests" "in_progress"
      (insertSeed "Design new landing page" "todo" emptyDB))

/-- Run a sequence of `createTask` calls, keeping only the final store. -/
def createAll (titles : List String) (db : DB) : DB :=
  titles.foldl (fun d title => (createTask title d).2) db

/-- The rows a `createTask` sequence appends, in creation order, when the
autoincrement counter starts at `nid` and the clock at `clk`. -/
def newRows (nid clk : Nat) : List String → List Task
  | [] => []
  | title :: titles =>
      { id := nid, title := title, status := "todo", created_at := clk }
        :: newRows (nid + 1) (clk + 1) titles

/-- Well-formedness of a store state: every row's id is below the
autoincrement counter and its `created_at` below the clock, and along
insertion order both ids and `created_at` are strictly increasing. -/
def WF (db : DB) : Prop :=
  (∀ t ∈ db.rows, t.id < db.nextId ∧ t.created_at < db.time) ∧
  db.rows.Pairwise (fun a b => a.id < b.id ∧ a.created_at < b.created_at)

instance (db : DB) : Decidable (WF db) := by
  unfold WF; infer_instance

/-- Store states reachable from the seeded startup state by the three
mutations. -/
inductive Reachable : DB → Prop where
  | init : Reachable initialDB
  | create (title : String) {db : DB} : Reachable db → Reachable (createTask title db).2
  | update (i : Nat) (s : String) {db : DB} :
      Reachable db → Reachable (updateTaskStatus i s db).2
  | delete (i : Nat) {db : DB} : Reachable db → Reachable (deleteTask i db).2

/-- JavaScript `String.prototype.trim`: strip leading and trailing
whitespace from the character list. -/
def jsTrim (s : String) : String :=
  ⟨((s.data.dropWhile Char.isWhitespace).reverse.dropWhile Char.isWhitespace).reverse⟩

/-- The client's `addTask` handler: trim the entered title, do nothing when
the trimmed title is empty, otherwise send the `createTask` mutation with
the trimmed title (the client ignores the mutation result and re-fetches). -/
def addTask (input : String) (db : DB) : DB :=
  let title := jsTrim input
  if title = "" then db else (createTask title db).2

/-! Helper lemmas about the descending insertion sort implementing
`ORDER BY created_at DESC`. -/

theorem insertDesc_perm (t : Task) (l : List Task) :
    List.Perm (insertDesc t l) (t :: l) := by
  induction l with
  | nil => simp [insertDesc]
  | cons x xs ih =>
    rw [insertDesc]
    split
    · exact List.Perm.refl _
    · exact (ih.cons x).trans (List.Perm.swap t x xs)

theorem orderByCreatedAtDesc_perm (l : List Task) :
    List.Perm (orderByCreatedAtDesc l) l := by
  induction l with
  | nil => exact List.Perm.refl _
  | cons x xs ih => exact (insertDesc_perm x _).trans (ih.cons x)

theorem mem_insertDesc {t : Task} {l : List Task} {r : Task} :
    r ∈ insertDesc t l ↔ r = t ∨ r ∈ l := by
  rw [(insertDesc_perm t l).mem_iff, List.mem_cons]

theorem pairwise_insertDesc (t : Task) (l : List Task)
    (h : l.Pairwise (fun a b => b.created_at ≤ a.created_at)) :
    (insertDesc t l).Pairwise (fun a b => b.created_at ≤ a.created_at) := by
  induction l with
  | nil => simp [insertDesc]
  | cons x xs ih =>
    rcases List.pairwise_cons.1 h with ⟨hx, hxs⟩
    rw [insertDesc]
    split
    case isTrue hle =>
      refine List.pairwise_cons.2 ⟨?_, h⟩
      intro b hb
      rcases List.mem_cons.1 hb with rfl | hb
      · exact hle
      · exact (hx b hb).trans hle
    case isFalse hgt =>
      refine List.pairwise_cons.2 ⟨?_, ih hxs⟩
      intro b hb
      rcases mem_insertDesc.1 hb with rfl | hb
      · omega
      · exact hx b hb

theorem pairwise_orderByCreatedAtDesc (l : List Task) :
    (orderByCreatedAtDesc l).Pairwise (fun a b => b.created_at ≤ a.created_at) := by
  induction l with
  | nil => simp [orderByCreatedAtDesc]
  | cons x xs ih => exact pairwise_insertDesc x _ ih

theorem insertDesc_eq_cons (t : Task) (l : List Task)
    (h : ∀ r ∈ l, r.created_at ≤ t.created_at) :
    insertDesc t l = t :: l := by
  cases l with
  | nil => rfl
  | cons x xs => rw [insertDesc, if_pos (h x (by simp))]

theorem orderByCreatedAtDesc_append_newest (t : Task) (l : List Task)
    (h : ∀ r ∈ l, r.created_at < t.created_at) :
    orderByCreatedAtDesc (l ++ [t]) = t :: orderByCreatedAtDesc l := by
  induction l with
  | nil => rfl
  | cons x xs ih =>
    have hx : x.created_at < t.created_at := h x (by simp)
    rw [List.cons_append, orderByCreatedAtDesc, ih (fun r hr => h r (by simp [hr])),
      orderByCreatedAtDesc, insertDesc, if_neg (by omega)]

theorem insertDesc_map (f : Task → Task) (hf : ∀ t, (f t).created_at = t.created_at)
    (t : Task) (l : List Task) :
    insertDesc (f t) (l.map f) = (insertDesc t l).map f := by
  induction l with
  | nil => rfl
  | cons x xs ih =>
    rw [List.map_cons, insertDesc, insertDesc, hf, hf]
    split
    · rfl
    · rw [List.map_cons, ih]

theorem orderByCreatedAtDesc_map (f : Task → Task)
    (hf : ∀ t, (f t).created_at = t.created_at) (l : List Task) :
    orderByCreatedAtDesc (l.map f) = (orderByCreatedAtDesc l).map f := by
  induction l with
  | nil => rfl
  | cons x xs ih => rw [List.map_cons, orderByCreatedAtDesc, orderByCreatedAtDesc, ih,
      insertDesc_map f hf]

theorem filter_insertDesc (p : Task → Bool) (t : Task) (l : List Task)
    (h : l.Pairwise (fun a b => b.created_at ≤ a.created_at)) :
    (insertDesc t l).filter p =
      if p t then insertDesc t (l.filter p) else l.filter p := by
  induction l with
  | nil =>
    cases hp : p t <;> simp [insertDesc, List.filter, hp]
  | cons x xs ih =>
    rcases List.pairwise_cons.1 h with ⟨hx, hxs⟩
    rw [insertDesc]
    split
    case isTrue hle =>
      cases hp : p t
      · simp [List.filter, hp]
      · rw [List.filter_cons_of_pos (by simp [hp]), if_pos rfl]
        refine (insertDesc_eq_cons t _ ?_).symm
        intro r hr
        have hr' : r ∈ x :: xs := List.mem_of_mem_filter hr
        rcases List.mem_cons.1 hr' with rfl | hr'
        · exact hle
        · exact (hx r hr').trans hle
    case isFalse hgt =>
      cases hp : p x
      · rw [List.filter_cons_of_neg (by simp [hp]), ih hxs,
          List.filter_cons_of_neg (by simp [hp])]
      · rw [List.filter_cons_of_pos (by simp [hp]), ih hxs,
          List.filter_cons_of_pos (by simp [hp]), insertDesc, if_neg hgt]
        cases hpt : p t <;> simp

theorem orderByCreatedAtDesc_filter (p : Task → Bool) (l : List Task) :
    orderByCreatedAtDesc (l.filter p) = (orderByCreatedAtDesc l).filter p := by
  induction l with
  | nil => rfl
  | cons x xs ih =>
    rw [orderByCreatedAtDesc,
      filter_insertDesc p x _ (pairwise_orderByCreatedAtDesc xs), ← ih]
    cases hp : p x
    · rw [List.filter_cons_of_neg (by simp [hp]), if_neg (by simp [hp])]
    · rw [List.filter_cons_of_pos (by simp [hp]), if_pos rfl, orderByCreatedAtDesc]

/-! Helper lemmas about the `SELECT ... WHERE id = ?` re-fetch and the
`UPDATE ... SET status` row transformer. -/

theorem setStatusRow_id (i : Nat) (s : String) (t : Task) :
    (setStatusRow i s t).id = t.id := by
  rw [setStatusRow]; split <;> rfl

theorem setStatusRow_title (i : Nat) (s : String) (t : Task) :
    (setStatusRow i s t).title = t.title := by
  rw [setStatusRow]; split <;> rfl

theorem setStatusRow_created_at (i : Nat) (s : String) (t : Task) :
    (setStatusRow i s t).created_at = t.created_at := by
  rw [setStatusRow]; split <;> rfl

theorem setStatusRow_of_ne {i : Nat} {t : Task} (s : String) (h : t.id ≠ i) :
    setStatusRow i s t = t := by
  rw [setStatusRow, if_neg (by simp [h])]

theorem getTask_append {i : Nat} {l : List Task} {t : Task} (hti : t.id = i)
    (h : ∀ r ∈ l, r.id ≠ i) : getTask i (l ++ [t]) = some t := by
  induction l with
  | nil => simp [getTask, List.find?, hti]
  | cons x xs ih =>
    rw [List.cons_append, getTask, List.find?_cons_of_neg _ (by simp [h x (by simp)])]
    exact ih (fun r hr => h r (by simp [hr]))

theorem getTask_map_setStatusRow (i : Nat) (s : String) (l : List Task) :
    getTask i (l.map (setStatusRow i s)) = (getTask i l).map (setStatusRow i s) := by
  induction l with
  | nil => rfl
  | cons x xs ih =>
    cases hx : (x.id == i)
    · rw [List.map_cons, getTask, List.find?_cons_of_neg _ (by simp [setStatusRow_id, hx]),
        getTask, List.find?_cons_of_neg _ (by simp [hx])]
      exact ih
    · rw [List.map_cons, getTask, List.find?_cons_of_pos _ (by simp [setStatusRow_id, hx]),
        getTask, List.find?_cons_of_pos _ (by simp [hx])]
      rfl

theorem pairwise_id_unique {l : List Task} (h : l.Pairwise (fun a b => a.id < b.id))
    {r t : Task} (hr : r ∈ l) (ht : t ∈ l) (hid : r.id = t.id) : r = t := by
  induction l with
  | nil => cases hr
  | cons x xs ih =>
    rcases List.pairwise_cons.1 h with ⟨hx, hxs⟩
    rcases List.mem_cons.1 hr with h1 | h1
    · rcases List.mem_cons.1 ht with h2 | h2
      · rw [h1, h2]
      · subst h1
        exact absurd hid (by have := hx t h2; omega)
    · rcases List.mem_cons.1 ht with h2 | h2
      · subst h2
        exact absurd hid (by have := hx r h1; omega)
      · exact ih hxs h1 h2

/-! Well-formedness is preserved by every operation, hence holds in every
reachable store state. -/

theorem WF_insertSeed (title status : String) {db : DB} (h : WF db) :
    WF (insertSeed title status db) := by
  obtain ⟨h1, h2⟩ := h
  constructor
  · intro t ht
    rw [insertSeed] at ht
    rcases List.mem_append.1 ht with ht | ht
    · have := h1 t ht
      rw [insertSeed]
      constructor <;> (dsimp only; omega)
    · rcases List.mem_singleton.1 ht with rfl
      rw [insertSeed]
      constructor <;> (dsimp only; omega)
  · rw [insertSeed]
    dsimp only
    rw [List.pairwise_append]
    refine ⟨h2, by simp, ?_⟩
    intro a ha b hb
    rcases List.mem_singleton.1 hb with rfl
    have := h1 a ha
    dsimp only
    omega

theorem WF_createTask (title : String) {db : DB} (h : WF db) :
    WF (createTask title db).2 := by
  obtain ⟨h1, h2⟩ := h
  constructor
  · intro t ht
    rw [createTask] at ht
    dsimp only [publish] at ht
    rcases List.mem_append.1 ht with ht | ht
    · have := h1 t ht
      constructor <;> (dsimp only [createTask, publish]; omega)
    · rcases List.mem_singleton.1 ht with rfl
      constructor <;> (dsimp only [createTask, publish, newTaskRow]; omega)
  · dsimp only [createTask, publish]
    rw [List.pairwise_append]
    refine ⟨h2, by simp, ?_⟩
    intro a ha b hb
    rcases List.mem_singleton.1 hb with rfl
    have := h1 a ha
    dsimp only [newTaskRow]
    omega

theorem WF_updateTaskStatus (i : Nat) (s : String) {db : DB} (h : WF db) :
    WF (updateTaskStatus i s db).2 := by
  obtain ⟨h1, h2⟩ := h
  constructor
  · intro t ht
    dsimp only [updateTaskStatus, publish] at ht ⊢
    rcases List.mem_map.1 ht with ⟨r, hr, rfl⟩
    rw [setStatusRow_id, setStatusRow_created_at]
    exact h1 r hr
  · dsimp only [updateTaskStatus, publish]
    rw [List.pairwise_map]
    refine h2.imp ?_
    intro a b hab
    rw [setStatusRow_id, setStatusRow_id, setStatusRow_created_at, setStatusRow_created_at]
    exact hab

theorem WF_deleteTask (i : Nat) {db : DB} (h : WF db) :
    WF (deleteTask i db).2 := by
  obtain ⟨h1, h2⟩ := h
  constructor
  · intro t ht
    dsimp only [deleteTask, publish] at ht ⊢
    exact h1 t (List.mem_of_mem_filter ht)
  · dsimp only [deleteTask, publish]
    exact h2.sublist (List.filter_sublist _)

theorem WF_initialDB : WF initialDB := by decide

theorem reachable_WF {db : DB} (h : Reachable db) : WF db := by
  induction h with
  | init => exact WF_initialDB
  | create title _ ih => exact WF_createTask title ih
  | update i s _ ih => exact WF_updateTaskStatus i s ih
  | delete i _ ih => exact WF_deleteTask i ih

theorem updateTaskStatus_found {db : DB} {i : Nat} (s : String) {t : Task}
    (ht : getTask i db.rows = some t) :
    (updateTaskStatus i s db).1 = some { t with status := s } := by
  have ht' : List.find? (fun r => r.id == i) db.rows = some t := ht
  have hbeq := List.find?_some ht'
  show getTask i (db.rows.map (setStatusRow i s)) = _
  rw [getTask_map_setStatusRow, ht]
  show some (setStatusRow i s t) = _
  rw [setStatusRow, if_pos hbeq]

/-- C3: for an id matching no row, `updateTaskStatus` resolves with no row
(the post-update re-fetch by id yields nothing — a null result, not a
defined not-found error) and the table is left unchanged. -/
theorem updateTaskStatus_missing_id (db : DB) (i : Nat) (s : String)
    (h : ∀ t ∈ db.rows, t.id ≠ i) :
    (updateTaskStatus i s db).1 = none ∧
    (updateTaskStatus i s db).2.rows = db.rows := by
  have hmap : db.rows.map (setStatusRow i s) = db.rows := by
    rw [show db.rows.map (setStatusRow i s) = db.rows.map id from
      List.map_congr_left fun t ht => setStatusRow_of_ne s (h t ht), List.map_id]
  constructor
  · show getTask i (db.rows.map (setStatusRow i s)) = none
    rw [hmap, getTask, List.find?_eq_none]
    intro t ht
    simp [h t ht]
  · show db.rows.map (setStatusRow i s) = db.rows
    exact hmap

theorem updateTaskStatus_missing_id_witness :
    (∀ t ∈ initialDB.rows, t.id ≠ 99) ∧
    ((updateTaskStatus 99 "done" initialDB).1 = none ∧
     (updateTaskStatus 99 "done" initialDB).2.rows = initialDB.rows) :=
  ⟨by decide, updateTaskStatus_missing_id initialDB 99 "done" (by decide)⟩

/-- C4: `deleteTask` resolves `true` for every id, present or not; deleting
the same id twice reports success both times, the second call leaving the
table exactly as the first left it. -/
theorem deleteTask_always_true (db : DB) (i : Nat) :
    (deleteTask i db).1 = true ∧
    (deleteTask i (deleteTask i db).2).1 = true ∧
    (deleteTask i (deleteTask i db).2).2.rows = (deleteTask i db).2.rows := by
  refine ⟨rfl, rfl, ?_⟩
  show (db.rows.filter (fun t => t.id != i)).filter (fun t => t.id != i) =
    db.rows.filter (fun t => t.id != i)
  rw [List.filter_filter]
  simp

/-- C7: each of the three mutations appends exactly one publication to the
`TASK_UPDATED` channel, carrying its resulting record: the re-fetched row
for `createTask` and `updateTaskStatus`, the `{ id, deleted: true }` record
for `deleteTask`. -/
theorem mutations_publish_once (db : DB) (title : String) (i j : Nat) (s : String) :
    (createTask title db).2.published =
      db.published ++ [⟨"TASK_UPDATED", Payload.row (createTask title db).1⟩] ∧
    (updateTaskStatus i s db).2.published =
      db.published ++ [⟨"TASK_UPDATED", Payload.row (updateTaskStatus i s db).1⟩] ∧
    (deleteTask j db).2.published =
      db.published ++ [⟨"TASK_UPDATED", Payload.deletion j⟩] ∧
    (createTask title db).2.published.length = db.published.length + 1 ∧
    (updateTaskStatus i s db).2.published.length = db.published.length + 1 ∧
    (deleteTask j db).2.published.length = db.published.length + 1 := by
  refine ⟨rfl, rfl, rfl, ?_, ?_, ?_⟩ <;>
    simp [createTask, updateTaskStatus, deleteTask, publish]

/-- C10: the client's `addTask` trims the entered title; when the trimmed
title is empty it sends no mutation and the store is untouched, otherwise
it sends `createTask` with the trimmed (hence non-empty) title. -/
theorem addTask_trims_and_skips_empty (input : String) (db : DB) :
    (jsTrim input = "" → addTask input db = db) ∧
    (jsTrim input ≠ "" →
      addTask input db = (createTask (jsTrim input) db).2 ∧
      newTaskRow (jsTrim input) db ∈ (addTask input db).rows ∧
      (newTaskRow (jsTrim input) db).title = jsTrim input ∧
      (newTaskRow (jsTrim input) db).title ≠ "") := by
  constructor
  · intro h
    show (if jsTrim input = "" then db else (createTask (jsTrim input) db).2) = db
    rw [if_pos h]
  · intro h
    have he : addTask input db = (createTask (jsTrim input) db).2 := by
      show (if jsTrim input = "" then db else (createTask (jsTrim input) db).2) = _
      rw [if_neg h]
    refine ⟨he, ?_, rfl, h⟩
    rw [he]
    show newTaskRow (jsTrim input) db ∈ db.rows ++ [newTaskRow (jsTrim input) db]
    exact List.mem_append_right _ (by simp)

theorem addTask_trims_and_skips_empty_witness :
    addTask "   " emptyDB = emptyDB ∧
    addTask "  A " emptyDB = (createTask (jsTrim "  A ") emptyDB).2 :=
  ⟨(addTask_trims_and_skips_empty "   " emptyDB).1 (by decide),
   ((addTask_trims_and_skips_empty "  A " emptyDB).2 (by decide)).1⟩

/-- C2: `createTask` appends exactly one row, with the given title, status
`'todo'` and the freshly generated id, and resolves with that row
re-fetched by its id; the resolved row's status is `'todo'` whatever the
title. -/
theorem createTask_spec (db : DB) (title : String) (h : WF db) :
    (createTask title db).1 = some (newTaskRow title db) ∧
    (createTask title db).2.rows = db.rows ++ [newTaskRow title db] ∧
    (newTaskRow title db).title = title ∧
    (newTaskRow title db).status = "todo" ∧
    (newTaskRow title db).id = db.nextId ∧
    (createTask title db).1.map Task.status = some "todo" := by
  have hfetch : getTask db.nextId (db.rows ++ [newTaskRow title db]) =
      some (newTaskRow title db) :=
    getTask_append rfl (fun r hr => by have := (h.1 r hr).1; omega)
  refine ⟨hfetch, rfl, rfl, rfl, rfl, ?_⟩
  show (getTask db.nextId (db.rows ++ [newTaskRow title db])).map Task.status = _
  rw [hfetch]
  rfl

theorem createTask_spec_witness :
    WF initialDB ∧
    ((createTask "Write tests" initialDB).1 = some (newTaskRow "Write tests" initialDB) ∧
     (createTask "Write tests" initialDB).2.rows =
       initialDB.rows ++ [newTaskRow "Write tests" initialDB] ∧
     (newTaskRow "Write tests" initialDB).title = "Write tests" ∧
     (newTaskRow "Write tests" initialDB).status = "todo" ∧
     (newTaskRow "Write tests" initialDB).id = initialDB.nextId ∧
     (createTask "Write tests" initialDB).1.map Task.status = some "todo") :=
  ⟨by decide, createTask_spec initialDB "Write tests" (by decide)⟩

/-- C5: when a row with the id exists, `updateTaskStatus` rewrites only that
row's status — its id, title and `created_at` survive, every other row is
untouched — and the subsequent listing shows the same rows in the same
order with just that status replaced. -/
theorem updateTaskStatus_frame (db : DB) (i : Nat) (s : String) (t : Task)
    (h : WF db) (ht : getTask i db.rows = some t) :
    (updateTaskStatus i s db).1 = some { t with status := s } ∧
    (updateTaskStatus i s db).2.rows = db.rows.map (setStatusRow i s) ∧
    (∀ r ∈ db.rows, r.id = i → r = t) ∧
    (∀ r ∈ db.rows, r.id ≠ i → r ∈ (updateTaskStatus i s db).2.rows) ∧
    tasksQuery (updateTaskStatus i s db).2 = (tasksQuery db).map (setStatusRow i s) ∧
    { t with status := s } ∈ tasksQuery (updateTaskStatus i s db).2 := by
  have hmem : t ∈ db.rows :=
    List.mem_of_find?_eq_some (show List.find? _ db.rows = some t from ht)
  have hpair : db.rows.Pairwise (fun a b => a.id < b.id) := h.2.imp (fun hab => hab.1)
  have hq : tasksQuery (updateTaskStatus i s db).2 =
      (tasksQuery db).map (setStatusRow i s) := by
    show orderByCreatedAtDesc (db.rows.map (setStatusRow i s)) = _
    exact orderByCreatedAtDesc_map _ (setStatusRow_created_at i s) db.rows
  have hts : setStatusRow i s t = { t with status := s } := by
    have hti := List.find?_some (show List.find? _ db.rows = some t from ht)
    rw [setStatusRow, if_pos hti]
  refine ⟨updateTaskStatus_found s ht, rfl, ?_, ?_, hq, ?_⟩
  · intro r hr hri
    have hti := List.find?_some (show List.find? _ db.rows = some t from ht)
    exact pairwise_id_unique hpair hr hmem (by simp at hti; omega)
  · intro r hr hri
    show r ∈ db.rows.map (setStatusRow i s)
    have hid : setStatusRow i s r = r := setStatusRow_of_ne s hri
    exact hid ▸ List.mem_map_of_mem _ hr
  · rw [hq]
    exact hts ▸ List.mem_map_of_mem _ ((orderByCreatedAtDesc_perm db.rows).mem_iff.2 hmem)

theorem updateTaskStatus_frame_witness :
    WF initialDB ∧
    getTask 2 initialDB.rows = some ⟨2, "Review pull requests", "in_progress", 1⟩ ∧
    ((updateTaskStatus 2 "done" initialDB).1 =
       some { (⟨2, "Review pull requests", "in_progress", 1⟩ : Task) with status := "done" } ∧
     (updateTaskStatus 2 "done" initialDB).2.rows =
       initialDB.rows.map (setStatusRow 2 "done") ∧
     (∀ r ∈ initialDB.rows, r.id = 2 → r = ⟨2, "Review pull requests", "in_progress", 1⟩) ∧
     (∀ r ∈ initialDB.rows, r.id ≠ 2 → r ∈ (updateTaskStatus 2 "done" initialDB).2.rows) ∧
     tasksQuery (updateTaskStatus 2 "done" initialDB).2 =
       (tasksQuery initialDB).map (setStatusRow 2 "done") ∧
     { (⟨2, "Review pull requests", "in_progress", 1⟩ : Task) with status := "done" } ∈
       tasksQuery (updateTaskStatus 2 "done" initialDB).2) :=
  ⟨by decide, by decide,
   updateTaskStatus_frame initialDB 2 "done" ⟨2, "Review pull requests", "in_progress", 1⟩
     (by decide) (by decide)⟩

/-- C6: `deleteTask` removes exactly the rows whose id matches and nothing
else: the listing afterwards excludes that id and still contains every
other previously present row unchanged. -/
theorem deleteTask_removes_exactly (db : DB) (i : Nat) :
    (deleteTask i db).2.rows = db.rows.filter (fun t => t.id != i) ∧
    tasksQuery (deleteTask i db).2 = (tasksQuery db).filter (fun t => t.id != i) ∧
    (∀ t ∈ tasksQuery (deleteTask i db).2, t.id ≠ i) ∧
    (∀ t ∈ db.rows, t.id ≠ i → t ∈ (deleteTask i db).2.rows) ∧
    (∀ t ∈ (deleteTask i db).2.rows, t ∈ db.rows) := by
  have hq : tasksQuery (deleteTask i db).2 =
      (tasksQuery db).filter (fun t => t.id != i) := by
    show orderByCreatedAtDesc (db.rows.filter (fun t => t.id != i)) = _
    exact orderByCreatedAtDesc_filter _ db.rows
  refine ⟨rfl, hq, ?_, ?_, ?_⟩
  · intro t htm
    rw [hq] at htm
    have := List.of_mem_filter htm
    simpa using this
  · intro t htm hne
    show t ∈ db.rows.filter (fun r => r.id != i)
    exact List.mem_filter.2 ⟨htm, by simp [hne]⟩
  · intro t htm
    exact List.mem_of_mem_filter htm

/-- C8: the store accepts any status string verbatim — for an existing id,
`updateTaskStatus` resolves with the row whose status equals the given
string (empty or outside the `todo` or `in_progress` or `done` set alike),
and the listing afterwards returns that row with exactly that status. -/
theorem status_not_constrained (db : DB) (i : Nat) (s : String) (t : Task)
    (ht : getTask i db.rows = some t) :
    (updateTaskStatus i s db).1 = some { t with status := s } ∧
    (updateTaskStatus i s db).1.map Task.status = some s ∧
    ∃ r ∈ tasksQuery (updateTaskStatus i s db).2, r.id = t.id ∧ r.status = s := by
  have hres := updateTaskStatus_found s ht
  refine ⟨hres, by rw [hres]; rfl, { t with status := s }, ?_, rfl, rfl⟩
  have hmem : t ∈ db.rows :=
    List.mem_of_find?_eq_some (show List.find? _ db.rows = some t from ht)
  have hq : tasksQuery (updateTaskStatus i s db).2 =
      (tasksQuery db).map (setStatusRow i s) := by
    show orderByCreatedAtDesc (db.rows.map (setStatusRow i s)) = _
    exact orderByCreatedAtDesc_map _ (setStatusRow_created_at i s) db.rows
  have hts : setStatusRow i s t = { t with status := s } := by
    have hti := List.find?_some (show List.find? _ db.rows = some t from ht)
    rw [setStatusRow, if_pos hti]
  rw [hq]
  exact hts ▸ List.mem_map_of_mem _ ((orderByCreatedAtDesc_perm db.rows).mem_iff.2 hmem)

theorem status_not_constrained_witness :
    getTask 1 initialDB.rows = some ⟨1, "Design new landing page", "todo", 0⟩ ∧
    ((updateTaskStatus 1 "" initialDB).1 =
       some { (⟨1, "Design new landing page", "todo", 0⟩ : Task) with status := "" } ∧
     (updateTaskStatus 1 "" initialDB).1.map Task.status = some "" ∧
     ∃ r ∈ tasksQuery (updateTaskStatus 1 "" initialDB).2,
       r.id = (⟨1, "Design new landing page", "todo", 0⟩ : Task).id ∧ r.status = "") :=
  ⟨by decide,
   status_not_constrained initialDB 1 "" ⟨1, "Design new landing page", "todo", 0⟩ (by decide)⟩

theorem tasksQuery_createAll (titles : List String) : ∀ db : DB, WF db →
    tasksQuery (createAll titles db) =
      (newRows db.nextId db.time titles).reverse ++ tasksQuery db := by
  induction titles with
  | nil =>
    intro db _
    simp [createAll, newRows]
  | cons title titles ih =>
    intro db h
    have hstep : tasksQuery (createTask title db).2 =
        newTaskRow title db :: tasksQuery db := by
      show orderByCreatedAtDesc (db.rows ++ [newTaskRow title db]) = _
      exact orderByCreatedAtDesc_append_newest _ _ (fun r hr => (h.1 r hr).2)
    have hAll : createAll (title :: titles) db =
        createAll titles (createTask title db).2 := rfl
    have hid : (createTask title db).2.nextId = db.nextId + 1 := rfl
    have htime : (createTask title db).2.time = db.time + 1 := rfl
    rw [hAll, ih _ (WF_createTask title h), hid, htime, hstep, newRows,
      List.reverse_cons, List.append_assoc]
    rfl

/-- C1: after any sequence of `createTask` calls on a well-formed store, the
listing is exactly the created rows newest-first followed by the previous
listing; in general it contains all rows of the store, sorted by
`created_at` descending. -/
theorem list_after_creates (db : DB) (titles : List String) (h : WF db) :
    tasksQuery (createAll titles db) =
      (newRows db.nextId db.time titles).reverse ++ tasksQuery db ∧
    List.Perm (tasksQuery (createAll titles db)) (createAll titles db).rows ∧
    (tasksQuery (createAll titles db)).Pairwise
      (fun a b => b.created_at ≤ a.created_at) :=
  ⟨tasksQuery_createAll titles db h, orderByCreatedAtDesc_perm _,
   pairwise_orderByCreatedAtDesc _⟩

theorem list_after_creates_witness :
    WF initialDB ∧
    (tasksQuery (createAll ["A", "B"] initialDB) =
       (newRows initialDB.nextId initialDB.time ["A", "B"]).reverse ++
         tasksQuery initialDB ∧
     List.Perm (tasksQuery (createAll ["A", "B"] initialDB))
       (createAll ["A", "B"] initialDB).rows ∧
     (tasksQuery (createAll ["A", "B"] initialDB)).Pairwise
       (fun a b => b.created_at ≤ a.created_at)) :=
  ⟨by decide, list_after_creates initialDB ["A", "B"] (by decide)⟩

/-- C9: in every reachable store state the row ids are strictly increasing
in insertion order (hence pairwise distinct) and below the autoincrement
counter; `updateTaskStatus` preserves every row's id, `createTask` only
appends the fresh id `nextId` (strictly larger than every existing id), and
`deleteTask` only removes rows. -/
theorem id_invariants (db : DB) (i : Nat) (s : String) (title : String)
    (h : Reachable db) :
    db.rows.Pairwise (fun a b => a.id < b.id) ∧
    (∀ t ∈ db.rows, t.id < db.nextId) ∧
    (updateTaskStatus i s db).2.rows.map Task.id = db.rows.map Task.id ∧
    (createTask title db).2.rows.map Task.id = db.rows.map Task.id ++ [db.nextId] ∧
    List.Sublist (deleteTask i db).2.rows db.rows ∧
    (∀ t ∈ db.rows, t.id < (newTaskRow title db).id) := by
  have hwf := reachable_WF h
  refine ⟨hwf.2.imp (fun hab => hab.1), fun t ht => (hwf.1 t ht).1, ?_, ?_, ?_, ?_⟩
  · show (db.rows.map (setStatusRow i s)).map Task.id = _
    rw [List.map_map]
    exact List.map_congr_left (fun t _ => setStatusRow_id i s t)
  · show (db.rows ++ [newTaskRow title db]).map Task.id = _
    rw [List.map_append]
    rfl
  · show List.Sublist (db.rows.filter (fun t => t.id != i)) db.rows
    exact List.filter_sublist _
  · exact fun t ht => (hwf.1 t ht).1

theorem id_invariants_witness :
    Reachable initialDB ∧
    (initialDB.rows.Pairwise (fun a b => a.id < b.id) ∧
     (∀ t ∈ initialDB.rows, t.id < initialDB.nextId) ∧
     (updateTaskStatus 2 "done" initialDB).2.rows.map Task.id =
       initialDB.rows.map Task.id ∧
     (createTask "X" initialDB).2.rows.map Task.id =
       initialDB.rows.map Task.id ++ [initialDB.nextId] ∧
     List.Sublist (deleteTask 2 initialDB).2.rows initialDB.rows ∧
     (∀ t ∈ initialDB.rows, t.id < (newTaskRow "X" initialDB).id)) :=
  ⟨Reachable.init, id_invariants initialDB 2 "done" "X" Reachable.init⟩

end TodoPoc
